import Mathlib

/-!
Verification development for the zone-specfile prepopulation tool
(`prepopulateSpecfile.py`).

The script reads a shapefile into a tabular record set, lets the user pick
column groups ("colsets"), normalizes missing values in the chosen columns
to the empty string, optionally drops key groups whose dissolved area is at
most a threshold, and finally emits, per colset, a header row of key-column
names plus variable names followed by one row per distinct sorted key tuple.

We embed the core pipeline (lines 71-91 and 121-134 of the script) as pure
functions.  Geometry operations (reprojection, union/dissolve, area) are
performed by an external geometry library in the source; we model them by a
`GeomOps` capability structure, exactly as the spec prescribes.  Dataframe
cell values are `Cell := WithTop String`: `some s` is a present value and
`none` (= `⊤`) is a missing value (`None`/`NaN`), which pandas sorts last;
`WithTop` gives precisely that order.  Record order in a dataframe is the
list order.  Python string `replace` is embedded as `listReplace`, a
left-to-right, non-overlapping, greedy substring substitution.
-/

namespace ZoningSpec

/-- A dataframe cell: a present string value (`some s`) or a missing value
(`none`, i.e. `⊤`), which sorts after every present value as in pandas. -/
abbrev Cell : Type := WithTop String

/-- A key tuple: the values of one row at the grouping columns, in column
order.  Python builds `tuple(x.values.tolist())` (line 87). -/
abbrev KeyTuple : Type := List Cell

/-- Geometry-library capabilities used by the script: `to_crs` (reproject to
the fixed equal-area projection), geometric union (used by `dissolve`), and
planar `area` in square meters.  The script delegates all three to
geopandas/shapely; the spec models them as an abstraction. -/
class GeomOps (G : Type) where
  reproject : G → G
  union : G → G → G
  area : G → ℚ

/-- One record of the shapefile dataframe: an optional geometry and the
attribute columns as an association list from column name to cell value. -/
structure Row (G : Type) where
  geometry : Option G
  attrs : List (String × Cell)
deriving DecidableEq

variable {G : Type}

/-- Value of record `r` in column `c` (missing column reads as a missing
value; the script only accesses validated columns). -/
def getVal (r : Row G) (c : String) : Cell :=
  (r.attrs.lookup c).getD none

/-- Key tuple of record `r` for grouping columns `cols` (line 87's
`tuple(x.values.tolist())` over `shp[cols]`). -/
def keyOf (cols : List String) (r : Row G) : KeyTuple :=
  cols.map (getVal r)

/-- Order-preserving first-occurrence deduplication, the embedding of line
72: `[col for i, col in enumerate(cols) if col not in cols[:i]]`.  The
accumulator holds the already-seen prefix. -/
def uniquify {α : Type} [DecidableEq α] (l : List α) : List α :=
  go [] l
where
  /-- Keep an element iff it has not been seen before. -/
  go (seen : List α) : List α → List α
    | [] => []
    | c :: t => if c ∈ seen then go seen t else c :: go (c :: seen) t

/-- Lines 74-77: `x if x is not None else ''`, applied cell-wise. -/
def normalizeVal (v : Cell) : Cell :=
  match v with
  | some s => some s
  | none => some ""

/-- Lines 76-77 for one record: every attribute in a column of `cols` has
its missing value replaced by the empty string; other columns untouched. -/
def normalizeRecord (cols : List String) (r : Row G) : Row G :=
  { r with
    attrs := r.attrs.map fun cv =>
      if cv.1 ∈ cols then (cv.1, normalizeVal cv.2) else cv }

/-- Lines 74-77: missing-value normalization over the whole record set. -/
def normalize (cols : List String) (shp : List (Row G)) : List (Row G) :=
  shp.map (normalizeRecord cols)

/-- Line 83's `to_crs`: reproject a record's geometry (if any) to the fixed
equal-area projection. -/
def reprojectRow [GeomOps G] (r : Row G) : Row G :=
  { r with geometry := r.geometry.map GeomOps.reproject }

/-- Line 83: records with a geometry, reprojected to the equal-area frame:
`shp[~shp.geometry.isnull()].to_crs(...)`. -/
def projectedOf [GeomOps G] (shp : List (Row G)) : List (Row G) :=
  (shp.filter fun r => r.geometry.isSome).map reprojectRow

/-- The distinct group keys of `dissolve = projected.dissolve(cols)`. -/
def groupKeys (cols : List String) (rows : List (Row G)) : List KeyTuple :=
  uniquify (rows.map (keyOf cols))

/-- The geometries of the rows in the group of key `k`. -/
def geomsOf (cols : List String) (rows : List (Row G)) (k : KeyTuple) : List G :=
  (rows.filter fun r => decide (keyOf cols r = k)).filterMap fun r => r.geometry

/-- Area of the union of one group's geometries (`dissolve` merges the
group's geometries into one shape, whose planar area `.area` reads). -/
def dissolvedArea [GeomOps G] (gs : List G) : ℚ :=
  match gs with
  | [] => 0
  | g :: t => GeomOps.area (t.foldl GeomOps.union g)

/-- Line 84, `projected.dissolve(cols)`: one entry per distinct key tuple,
carrying the area of the dissolved group geometry. -/
def dissolveTable [GeomOps G] (cols : List String) (rows : List (Row G)) :
    List (KeyTuple × ℚ) :=
  (groupKeys cols rows).map fun k => (k, dissolvedArea (geomsOf cols rows k))

/-- Line 85, `dissolve[dissolve.area > minSizeSqM].index`: the key tuples
whose dissolved area is strictly greater than the threshold, computed from
the geometry-bearing reprojected records. -/
def retainedKeys [GeomOps G] (cols : List String) (minSizeSqM : ℚ)
    (shp : List (Row G)) : List KeyTuple :=
  ((dissolveTable cols (projectedOf shp)).filter fun ka =>
      decide (ka.2 > minSizeSqM)).map Prod.fst

/-- Line 87 (several grouping columns): membership of the record's key
tuple in the retained index, by exact tuple equality. -/
def maskTuple (cols : List String) (includeZones : List KeyTuple) (r : Row G) :
    Bool :=
  decide (keyOf cols r ∈ includeZones)

/-- The scalar index value of a key tuple when there is a single grouping
column (a one-column `dissolve` yields a scalar index, not tuples). -/
def keyScalar (k : KeyTuple) : Cell :=
  k.headD none

/-- Line 89 (exactly one grouping column): `shp[cols[0]].isin(...)`, scalar
value inclusion in the retained scalar index values. -/
def maskScalar (c : String) (includeZones : List KeyTuple) (r : Row G) :
    Bool :=
  decide (getVal r c ∈ includeZones.map keyScalar)

/-- Lines 79-91, the `--drop-small-zones` filter on an already-normalized
record set: dissolve by `cols`, keep key tuples of area strictly above
`minSizeSqM`, and keep exactly the records whose key is retained.  A
grouping on an empty column list is rejected by pandas
(`ValueError: No group keys passed!`); we model that failure with
`Except.error`. -/
def dropSmallZones [GeomOps G] (cols : List String) (minSizeSqM : ℚ)
    (shp : List (Row G)) : Except String (List (Row G)) :=
  if cols.isEmpty then Except.error "No group keys passed!"
  else
    let includeZones := retainedKeys cols minSizeSqM shp
    let mask : Row G → Bool :=
      if cols.length ≠ 1 then maskTuple cols includeZones
      else maskScalar cols.headI includeZones
    Except.ok (shp.filter mask)

/-- Lines 71-91: flatten and uniquify the colsets (71-72), normalize missing
values in those columns (74-77), and, when `--drop-small-zones MIN` was
given, drop the small zones with `minSizeSqM = MIN * 1000 ** 2` (79-91). -/
def prepopulateFilter [GeomOps G] (colsets : List (List String))
    (dropSmallZonesArg : Option ℚ) (shp0 : List (Row G)) :
    Except String (List (Row G)) :=
  let cols := uniquify colsets.flatten
  let shp := normalize cols shp0
  match dropSmallZonesArg with
  | none => Except.ok shp
  | some minKm2 => dropSmallZones cols (minKm2 * 1000 ^ 2) shp

/-- Python `str.replace` on character lists: greedy left-to-right
non-overlapping replacement of `a :: p'` by `r`, fueled by the remaining
length (each step consumes at least one character, so fuel `s.length`
suffices; the `0, s` arm is never reached then). -/
def listReplaceAux (a : Char) (p' r : List Char) : Nat → List Char → List Char
  | _, [] => []
  | 0, s => s
  | n + 1, c :: t =>
    if (a :: p') <+: (c :: t)
    then r ++ listReplaceAux a p' r n (t.drop p'.length)
    else c :: listReplaceAux a p' r n t

/-- Python `str.replace(pat, repl)` on character lists (an empty pattern is
never used by the script; we return the string unchanged for it). -/
def listReplace (p r s : List Char) : List Char :=
  match p with
  | [] => s
  | a :: p' => listReplaceAux a p' r s.length s

/-- Python `str.replace` on strings. -/
def strReplace (pat repl s : String) : String :=
  ⟨listReplace pat.data repl.data s.data⟩

/-- Line 130: `a.replace('Hectares', 'Acres').replace('Meters', 'Feet')`. -/
def toImperialName (a : String) : String :=
  strReplace "Meters" "Feet" (strReplace "Hectares" "Acres" a)

/-- The inverse substitution named by the spec (`imperial → metric`):
replace every `Feet` back by `Meters` and then every `Acres` back by
`Hectares`. -/
def toMetricName (a : String) : String :=
  strReplace "Acres" "Hectares" (strReplace "Feet" "Meters" a)

/-- Line 130 over the variable-name list. -/
def toImperialNames (attrs : List String) : List String :=
  attrs.map toImperialName

/-- The inverse substitution applied to a variable-name list. -/
def toMetricNames (attrs : List String) : List String :=
  attrs.map toMetricName

/-- The metric→imperial substitution is "defined" for a variable name when
the name contains neither of the imperial replacement words `Acres` and
`Feet` as a substring (the spec's proviso "where defined"). -/
def substitutionDefined (a : String) : Prop :=
  ¬ ("Acres".data <:+: a.data) ∧ ¬ ("Feet".data <:+: a.data)

instance : DecidablePred substitutionDefined := fun a =>
  inferInstanceAs (Decidable (_ ∧ _))

/-- Lines 127-130: variable columns are the registry names without `zone`,
rewritten to imperial unit names when the `--imperial` flag is set. -/
def resolveAttrs (varRegistry : List String) (imperial : Bool) : List String :=
  let attrs := varRegistry.filter fun v => decide (v ≠ "zone")
  if imperial then attrs.map toImperialName else attrs

/-- Comparison used for `sort_values(colset)`: lexicographic over the
columns, with missing values (`⊤`) last, as pandas sorts them. -/
def keyLe (k1 k2 : KeyTuple) : Bool :=
  decide (k1 ≤ k2)

/-- Lines 122-133, one per-colset block: the header row
`colset + attrs` (line 132) and the data rows
`shp[colset].drop_duplicates().sort_values(colset)` (lines 125 and 133),
each data row being exactly the key values of one distinct key tuple. -/
def build (shp : List (Row G)) (colset : List String)
    (varRegistry : List String) (imperial : Bool) :
    List String × List KeyTuple :=
  let relevantCols := (uniquify (shp.map (keyOf colset))).mergeSort keyLe
  (colset ++ resolveAttrs varRegistry imperial, relevantCols)

/-- Modelled from the spec: "filtering is applied using only the first
colset's grouping" (§4.2 note).  This is the filter the spec describes for
multiple colsets — grouping and dissolving by the first colset only — to be
compared with `prepopulateFilter`. -/
def firstColsetOnlyFilter [GeomOps G] (colsets : List (List String))
    (minKm2 : ℚ) (shp0 : List (Row G)) : Except String (List (Row G)) :=
  let cols := uniquify colsets.flatten
  let shp := normalize cols shp0
  dropSmallZones colsets.headI (minKm2 * 1000 ^ 2) shp

/-- Concrete geometry model used for witnesses and counterexamples: a
geometry is its area in whole square meters; reprojection preserves it and
the union of disjoint shapes adds areas. -/
instance : GeomOps ℕ where
  reproject := id
  union := (· + ·)
  area := fun n => (n : ℚ)


/-! ## Properties of `uniquify` -/

theorem uniquify_go_mem {α : Type} [DecidableEq α] (seen : List α) (l : List α)
    (x : α) : x ∈ uniquify.go seen l ↔ x ∈ l ∧ x ∉ seen := by
  induction l generalizing seen with
  | nil => simp [uniquify.go]
  | cons c t ih =>
    by_cases hc : c ∈ seen
    · rw [uniquify.go, if_pos hc, ih]
      constructor
      · rintro ⟨hx, hs⟩
        exact ⟨List.mem_cons_of_mem _ hx, hs⟩
      · rintro ⟨hx, hs⟩
        rcases List.mem_cons.mp hx with rfl | hx
        · exact absurd hc hs
        · exact ⟨hx, hs⟩
    · rw [uniquify.go, if_neg hc]
      constructor
      · intro hx
        rcases List.mem_cons.mp hx with rfl | hx
        · exact ⟨List.mem_cons_self _ _, hc⟩
        · rcases (ih _).mp hx with ⟨h1, h2⟩
          refine ⟨List.mem_cons_of_mem _ h1, fun hs => h2 ?_⟩
          exact List.mem_cons_of_mem _ hs
      · rintro ⟨hx, hs⟩
        rcases List.mem_cons.mp hx with rfl | hx
        · exact List.mem_cons_self _ _
        · by_cases hxc : x = c
          · subst hxc; exact List.mem_cons_self _ _
          · refine List.mem_cons_of_mem _ ((ih _).mpr ⟨hx, ?_⟩)
            intro hmem
            rcases List.mem_cons.mp hmem with h | h
            · exact hxc h
            · exact hs h

theorem uniquify_mem {α : Type} [DecidableEq α] (l : List α) (x : α) :
    x ∈ uniquify l ↔ x ∈ l := by
  rw [uniquify, uniquify_go_mem]
  simp

theorem uniquify_go_nodup {α : Type} [DecidableEq α] (seen : List α)
    (l : List α) : (uniquify.go seen l).Nodup := by
  induction l generalizing seen with
  | nil => simp [uniquify.go]
  | cons c t ih =>
    by_cases hc : c ∈ seen
    · rw [uniquify.go, if_pos hc]; exact ih seen
    · rw [uniquify.go, if_neg hc]
      refine List.Nodup.cons ?_ (ih (c :: seen))
      intro hmem
      exact ((uniquify_go_mem _ _ _).mp hmem).2 (List.mem_cons_self _ _)

theorem uniquify_nodup {α : Type} [DecidableEq α] (l : List α) :
    (uniquify l).Nodup :=
  uniquify_go_nodup [] l

theorem uniquify_toFinset {α : Type} [DecidableEq α] (l : List α) :
    (uniquify l).toFinset = l.toFinset := by
  ext x
  simp [List.mem_toFinset, uniquify_mem]

/-- The length of the deduplicated list is the number of distinct values. -/
theorem uniquify_length {α : Type} [DecidableEq α] (l : List α) :
    (uniquify l).length = l.toFinset.card := by
  rw [← uniquify_toFinset, List.toFinset_card_of_nodup (uniquify_nodup l)]

/-! ## Properties of missing-value normalization -/

/-- Column `c` is present in record `r` (pandas guarantees this for every
column of the dataframe; the interactive loop validates entered columns). -/
def hasColumn (r : Row G) (c : String) : Prop :=
  (r.attrs.lookup c).isSome = true

instance (r : Row G) (c : String) : Decidable (hasColumn r c) :=
  inferInstanceAs (Decidable ((r.attrs.lookup c).isSome = true))

theorem lookup_normalizeRecord (cols : List String) (r : Row G) (c : String) :
    (normalizeRecord cols r).attrs.lookup c =
      (r.attrs.lookup c).map fun v => if c ∈ cols then normalizeVal v else v := by
  obtain ⟨g, l⟩ := r
  show (l.map _).lookup c = (l.lookup c).map _
  induction l with
  | nil => simp
  | cons hd tl ih =>
    obtain ⟨k, v⟩ := hd
    by_cases hk : k ∈ cols
    · rw [List.map_cons, if_pos hk]
      rcases eq_or_ne c k with rfl | hck
      · simp [hk]
      · rw [List.lookup_cons, List.lookup_cons]
        have : (c == k) = false := beq_false_of_ne hck
        rw [this]
        exact ih
    · rw [List.map_cons, if_neg hk]
      rcases eq_or_ne c k with rfl | hck
      · simp [List.lookup_cons, if_neg hk]
      · rw [List.lookup_cons, List.lookup_cons]
        have : (c == k) = false := beq_false_of_ne hck
        rw [this]
        exact ih

theorem normalizeVal_eq_getD (v : Cell) :
    normalizeVal v = some (Option.getD v "") := by
  cases v <;> rfl

theorem getVal_normalizeRecord_of_mem (cols : List String) (r : Row G)
    (c : String) (hc : c ∈ cols) (hr : hasColumn r c) :
    getVal (normalizeRecord cols r) c = some (Option.getD (getVal r c) "") := by
  rw [getVal, lookup_normalizeRecord]
  rcases hlook : r.attrs.lookup c with _ | v
  · rw [hasColumn, hlook] at hr
    simp at hr
  · rw [getVal, hlook]
    simp [if_pos hc, normalizeVal_eq_getD]

theorem getVal_normalizeRecord_of_not_mem (cols : List String) (r : Row G)
    (c : String) (hc : c ∉ cols) :
    getVal (normalizeRecord cols r) c = getVal r c := by
  rw [getVal, lookup_normalizeRecord, getVal]
  rcases hlook : r.attrs.lookup c with _ | v
  · rfl
  · simp [if_neg hc]

/-! ## Properties of the small-zone filter -/

theorem keyOf_length (cols : List String) (r : Row G) :
    (keyOf cols r).length = cols.length := by
  simp [keyOf]

theorem mem_groupKeys_length {cols : List String} {rows : List (Row G)}
    {k : KeyTuple} (hk : k ∈ groupKeys cols rows) : k.length = cols.length := by
  rw [groupKeys, uniquify_mem] at hk
  obtain ⟨r, _, rfl⟩ := List.mem_map.mp hk
  exact keyOf_length cols r

/-- A key tuple is retained iff it is a group key of the projected records
and its dissolved area strictly exceeds the threshold. -/
theorem mem_retainedKeys [GeomOps G] (cols : List String) (minSizeSqM : ℚ)
    (shp : List (Row G)) (k : KeyTuple) :
    k ∈ retainedKeys cols minSizeSqM shp ↔
      k ∈ groupKeys cols (projectedOf shp) ∧
        dissolvedArea (geomsOf cols (projectedOf shp) k) > minSizeSqM := by
  rw [retainedKeys, dissolveTable]
  constructor
  · intro hk
    obtain ⟨⟨k', a⟩, hmem, rfl⟩ := List.mem_map.mp hk
    obtain ⟨hmem', hdec⟩ := List.mem_filter.mp hmem
    obtain ⟨k'', hk'', heq⟩ := List.mem_map.mp hmem'
    obtain ⟨rfl, rfl⟩ : k'' = k' ∧ dissolvedArea (geomsOf cols (projectedOf shp) k'') = a := by
      constructor
      · exact congrArg Prod.fst heq
      · exact congrArg Prod.snd heq
    exact ⟨hk'', of_decide_eq_true hdec⟩
  · rintro ⟨hk, harea⟩
    refine List.mem_map.mpr ⟨(k, dissolvedArea (geomsOf cols (projectedOf shp) k)), ?_, rfl⟩
    refine List.mem_filter.mpr ⟨List.mem_map.mpr ⟨k, hk, rfl⟩, decide_eq_true harea⟩

theorem retainedKeys_length [GeomOps G] {cols : List String} {minSizeSqM : ℚ}
    {shp : List (Row G)} {k : KeyTuple}
    (hk : k ∈ retainedKeys cols minSizeSqM shp) : k.length = cols.length :=
  mem_groupKeys_length ((mem_retainedKeys cols minSizeSqM shp k).mp hk).1

/-- On singleton-key index sets, the scalar `isin` test of line 89 agrees
with the tuple-membership test of line 87. -/
theorem maskScalar_eq_maskTuple (c : String) (izn : List KeyTuple)
    (hizn : ∀ k ∈ izn, k.length = 1) (r : Row G) :
    maskScalar c izn r = maskTuple [c] izn r := by
  rw [maskScalar, maskTuple, decide_eq_decide]
  constructor
  · intro hx
    obtain ⟨k, hk, hkeq⟩ := List.mem_map.mp hx
    obtain ⟨v, rfl⟩ := List.length_eq_one.mp (hizn k hk)
    rw [keyScalar] at hkeq
    simp only [List.headD] at hkeq
    have : keyOf [c] r = [v] := by
      rw [keyOf]
      simp [hkeq]
    rw [this]
    exact hk
  · intro hx
    refine List.mem_map.mpr ⟨keyOf [c] r, hx, ?_⟩
    rfl

/-- Lines 86-90 always compute the same thing: keep exactly the records
whose key tuple over `cols` is in the retained index. -/
theorem dropSmallZones_eq_filter [GeomOps G] (cols : List String)
    (minSizeSqM : ℚ) (shp : List (Row G)) (hcols : cols ≠ []) :
    dropSmallZones cols minSizeSqM shp =
      Except.ok (shp.filter fun r =>
        maskTuple cols (retainedKeys cols minSizeSqM shp) r) := by
  simp only [dropSmallZones]
  rw [if_neg (by simpa [List.isEmpty_iff] using hcols)]
  rcases eq_or_ne cols.length 1 with hlen | hlen
  · obtain ⟨c, rfl⟩ := List.length_eq_one.mp hlen
    rw [if_neg (by simp)]
    congr 1
    apply List.filter_congr
    intro r _
    exact maskScalar_eq_maskTuple c (retainedKeys [c] minSizeSqM shp)
      (fun k hk => retainedKeys_length hk) r
  · rw [if_pos hlen]

theorem projectedOf_filter_isSome [GeomOps G] (shp : List (Row G)) :
    projectedOf (shp.filter fun r => r.geometry.isSome) = projectedOf shp := by
  rw [projectedOf, projectedOf, List.filter_filter]
  congr 1
  apply List.filter_congr
  intro r _
  cases h : r.geometry.isSome <;> simp [h]

theorem retainedKeys_filter_isSome [GeomOps G] (cols : List String)
    (minSizeSqM : ℚ) (shp : List (Row G)) :
    retainedKeys cols minSizeSqM (shp.filter fun r => r.geometry.isSome) =
      retainedKeys cols minSizeSqM shp := by
  rw [retainedKeys, retainedKeys, projectedOf_filter_isSome]

/-! ## Claim theorems about the area filter -/

/-- C10: the area filter preserves relative order and multiplicity of the
surviving records: the filtered record set is exactly `List.filter` of the
input by "key tuple is retained" (so a subsequence, with no reordering,
duplication, or per-record modification). -/
theorem c10_filter_is_exact_subsequence [GeomOps G] (cols : List String)
    (minSizeSqM : ℚ) (shp : List (Row G)) (hcols : cols ≠ []) :
    dropSmallZones cols minSizeSqM shp =
      Except.ok (shp.filter fun r =>
        maskTuple cols (retainedKeys cols minSizeSqM shp) r) ∧
    ∀ out, dropSmallZones cols minSizeSqM shp = Except.ok out →
      out.Sublist shp := by
  refine ⟨dropSmallZones_eq_filter cols minSizeSqM shp hcols, fun out hout => ?_⟩
  rw [dropSmallZones_eq_filter cols minSizeSqM shp hcols] at hout
  rw [← Except.ok.inj hout]
  exact List.filter_sublist shp

/-- C10 witness at a concrete input. -/
theorem c10_filter_is_exact_subsequence_witness :
    (["a"] : List String) ≠ [] ∧
    (dropSmallZones ["a"] (0 : ℚ) ([⟨some 7, [("a", some "x")]⟩] : List (Row ℕ)) =
      Except.ok (([⟨some 7, [("a", some "x")]⟩] : List (Row ℕ)).filter fun r =>
        maskTuple ["a"] (retainedKeys ["a"] (0 : ℚ) [⟨some 7, [("a", some "x")]⟩]) r) ∧
    ∀ out, dropSmallZones ["a"] (0 : ℚ)
        ([⟨some 7, [("a", some "x")]⟩] : List (Row ℕ)) = Except.ok out →
      out.Sublist [⟨some 7, [("a", some "x")]⟩]) :=
  ⟨by decide, c10_filter_is_exact_subsequence ["a"] 0 _ (by decide)⟩

/-- C8: with a one-column colset, the scalar `isin` membership test and the
tuple-equality membership test are behaviorally equivalent, and the filter
keeps exactly the records whose one-element key tuple is retained. -/
theorem c8_scalar_and_tuple_masks_agree [GeomOps G] (c : String)
    (minSizeSqM : ℚ) (shp : List (Row G)) :
    (∀ r : Row G, maskScalar c (retainedKeys [c] minSizeSqM shp) r =
        maskTuple [c] (retainedKeys [c] minSizeSqM shp) r) ∧
    dropSmallZones [c] minSizeSqM shp =
      Except.ok (shp.filter fun r =>
        maskTuple [c] (retainedKeys [c] minSizeSqM shp) r) :=
  ⟨fun r => maskScalar_eq_maskTuple c (retainedKeys [c] minSizeSqM shp)
      (fun _ hk => retainedKeys_length hk) r,
   dropSmallZones_eq_filter [c] minSizeSqM shp (by simp)⟩

/-- C9: with a minimum-area threshold but zero accepted colsets, the filter
step fails (pandas rejects grouping on an empty column list) rather than
returning the record set unchanged. -/
theorem c9_empty_colsets_error [GeomOps G] (minKm2 : ℚ) (shp0 : List (Row G)) :
    prepopulateFilter [] (some minKm2) shp0 = Except.error "No group keys passed!" ∧
    ∀ out, prepopulateFilter [] (some minKm2) shp0 ≠ Except.ok out := by
  refine ⟨rfl, fun out h => ?_⟩
  rw [show prepopulateFilter [] (some minKm2) shp0 =
      (Except.error "No group keys passed!" : Except String (List (Row G))) from rfl] at h
  exact Except.noConfusion h

/-- C4 (amended): a key tuple is retained iff its dissolved area is
strictly greater than `minSizeSqM`; a key whose dissolved area equals the
threshold exactly is dropped, and a record survives iff its key tuple is
retained. -/
theorem c4_retained_iff_strictly_greater [GeomOps G] (cols : List String)
    (minSizeSqM : ℚ) (shp : List (Row G)) (hcols : cols ≠ []) :
    (∀ k, k ∈ retainedKeys cols minSizeSqM shp ↔
      k ∈ groupKeys cols (projectedOf shp) ∧
        dissolvedArea (geomsOf cols (projectedOf shp) k) > minSizeSqM) ∧
    (∀ out, dropSmallZones cols minSizeSqM shp = Except.ok out →
      ∀ r ∈ shp, (r ∈ out ↔ keyOf cols r ∈ retainedKeys cols minSizeSqM shp)) := by
  refine ⟨fun k => mem_retainedKeys cols minSizeSqM shp k, fun out hout r hr => ?_⟩
  rw [dropSmallZones_eq_filter cols minSizeSqM shp hcols] at hout
  rw [← Except.ok.inj hout, List.mem_filter, maskTuple]
  simp [hr]

/-- C4 witness at a concrete input. -/
theorem c4_retained_iff_strictly_greater_witness :
    (["Z"] : List String) ≠ [] ∧
    ((∀ k, k ∈ retainedKeys ["Z"] (5 : ℚ) ([⟨some 7, [("Z", some "C")]⟩] : List (Row ℕ)) ↔
      k ∈ groupKeys ["Z"] (projectedOf [⟨some 7, [("Z", some "C")]⟩]) ∧
        dissolvedArea (geomsOf ["Z"] (projectedOf [⟨some 7, [("Z", some "C")]⟩]) k) > (5 : ℚ)) ∧
    (∀ out, dropSmallZones ["Z"] (5 : ℚ)
        ([⟨some 7, [("Z", some "C")]⟩] : List (Row ℕ)) = Except.ok out →
      ∀ r ∈ ([⟨some 7, [("Z", some "C")]⟩] : List (Row ℕ)),
        (r ∈ out ↔ keyOf ["Z"] r ∈ retainedKeys ["Z"] (5 : ℚ) [⟨some 7, [("Z", some "C")]⟩]))) :=
  ⟨by decide, c4_retained_iff_strictly_greater ["Z"] 5 _ (by decide)⟩

/-- C4 counterexample: the §8 scenario's "areas ≥ the threshold are
retained" fails at exact equality: a key whose dissolved area is exactly
the 1 km² threshold (1000000 m²) is dropped by the strict comparison. -/
theorem c4_counterexample :
    dissolvedArea (geomsOf ["Z"] (projectedOf [(⟨some 1000000, [("Z", some "C")]⟩ : Row ℕ)])
        [some "C"]) = (1 : ℚ) * 1000 ^ 2 ∧
    prepopulateFilter [["Z"]] (some 1) [(⟨some 1000000, [("Z", some "C")]⟩ : Row ℕ)] =
      Except.ok [] := by
  constructor
  · show ((1000000 : ℕ) : ℚ) = (1 : ℚ) * 1000 ^ 2
    norm_num
  · have h0 : prepopulateFilter [["Z"]] (some 1) [(⟨some 1000000, [("Z", some "C")]⟩ : Row ℕ)] =
        dropSmallZones ["Z"] ((1 : ℚ) * 1000 ^ 2)
          (normalize ["Z"] [(⟨some 1000000, [("Z", some "C")]⟩ : Row ℕ)]) := rfl
    rw [h0, show (1 : ℚ) * 1000 ^ 2 = 1000000 from by norm_num]
    rfl

/-- C3 (amended): records without geometry are excluded from the area
computation (dropping them changes no retained key), but they are still
subject to removal: a null-geometry record survives iff its key tuple is
retained. -/
theorem c3_null_geometry_still_filtered [GeomOps G] (cols : List String)
    (minSizeSqM : ℚ) (shp : List (Row G)) (hcols : cols ≠ []) :
    retainedKeys cols minSizeSqM (shp.filter fun r => r.geometry.isSome) =
      retainedKeys cols minSizeSqM shp ∧
    ∀ r ∈ shp, r.geometry = none →
      ∀ out, dropSmallZones cols minSizeSqM shp = Except.ok out →
        (r ∈ out ↔ keyOf cols r ∈ retainedKeys cols minSizeSqM shp) := by
  refine ⟨retainedKeys_filter_isSome cols minSizeSqM shp, fun r hr _ out hout => ?_⟩
  rw [dropSmallZones_eq_filter cols minSizeSqM shp hcols] at hout
  rw [← Except.ok.inj hout, List.mem_filter, maskTuple]
  simp [hr]

/-- C3 witness at a concrete input. -/
theorem c3_null_geometry_still_filtered_witness :
    (["a"] : List String) ≠ [] ∧
    (retainedKeys ["a"] (2 : ℚ)
        (([⟨none, [("a", some "x")]⟩, ⟨some 9, [("a", some "x")]⟩] : List (Row ℕ)).filter
          fun r => r.geometry.isSome) =
      retainedKeys ["a"] (2 : ℚ)
        ([⟨none, [("a", some "x")]⟩, ⟨some 9, [("a", some "x")]⟩] : List (Row ℕ)) ∧
    ∀ r ∈ ([⟨none, [("a", some "x")]⟩, ⟨some 9, [("a", some "x")]⟩] : List (Row ℕ)),
      r.geometry = none →
      ∀ out, dropSmallZones ["a"] (2 : ℚ)
          ([⟨none, [("a", some "x")]⟩, ⟨some 9, [("a", some "x")]⟩] : List (Row ℕ)) =
            Except.ok out →
        (r ∈ out ↔ keyOf ["a"] r ∈ retainedKeys ["a"] (2 : ℚ)
          [⟨none, [("a", some "x")]⟩, ⟨some 9, [("a", some "x")]⟩])) :=
  ⟨by decide, c3_null_geometry_still_filtered ["a"] 2 _ (by decide)⟩

/-- C3 counterexample: a record whose geometry is absent is removed by the
area filter when its key tuple is not retained (here its key has no
geometry at all, so it cannot be retained), contradicting "appears
unchanged in the filtered RecordSet". -/
theorem c3_counterexample :
    (⟨none, [("a", some "x")]⟩ : Row ℕ).geometry = none ∧
    dropSmallZones ["a"] (1 : ℚ) [(⟨none, [("a", some "x")]⟩ : Row ℕ)] = Except.ok [] ∧
    dropSmallZones ["a"] (1 : ℚ) [(⟨none, [("a", some "x")]⟩ : Row ℕ)] ≠
      Except.ok [(⟨none, [("a", some "x")]⟩ : Row ℕ)] := by
  refine ⟨rfl, rfl, fun h => ?_⟩
  rw [show dropSmallZones ["a"] (1 : ℚ) [(⟨none, [("a", some "x")]⟩ : Row ℕ)] =
      Except.ok [] from rfl] at h
  simp at h

/-- C2 (amended): when several colsets are supplied, the area filter groups
and dissolves by the order-preserving deduplicated concatenation of all
the colsets' columns (not only the first colset), and keeps exactly the
records whose key tuple over those flattened columns is retained. -/
theorem c2_filter_groups_by_flattened_colsets [GeomOps G]
    (colsets : List (List String)) (minKm2 : ℚ) (shp0 : List (Row G))
    (hcols : uniquify colsets.flatten ≠ []) :
    prepopulateFilter colsets (some minKm2) shp0 =
      Except.ok ((normalize (uniquify colsets.flatten) shp0).filter fun r =>
        maskTuple (uniquify colsets.flatten)
          (retainedKeys (uniquify colsets.flatten) (minKm2 * 1000 ^ 2)
            (normalize (uniquify colsets.flatten) shp0)) r) := by
  have h0 : prepopulateFilter colsets (some minKm2) shp0 =
      dropSmallZones (uniquify colsets.flatten) (minKm2 * 1000 ^ 2)
        (normalize (uniquify colsets.flatten) shp0) := rfl
  rw [h0]
  exact dropSmallZones_eq_filter _ _ _ hcols

/-- C2 witness at a concrete input. -/
theorem c2_filter_groups_by_flattened_colsets_witness :
    uniquify ([["a"], ["b"]] : List (List String)).flatten ≠ [] ∧
    prepopulateFilter [["a"], ["b"]] (some (2 : ℚ)) ([] : List (Row ℕ)) =
      Except.ok ((normalize (uniquify ([["a"], ["b"]] : List (List String)).flatten)
          ([] : List (Row ℕ))).filter fun r =>
        maskTuple (uniquify ([["a"], ["b"]] : List (List String)).flatten)
          (retainedKeys (uniquify ([["a"], ["b"]] : List (List String)).flatten)
            ((2 : ℚ) * 1000 ^ 2)
            (normalize (uniquify ([["a"], ["b"]] : List (List String)).flatten)
              ([] : List (Row ℕ)))) r) :=
  ⟨by decide, c2_filter_groups_by_flattened_colsets [["a"], ["b"]] 2 [] (by decide)⟩

/-- C2 counterexample: with colsets `[["a"], ["b"]]` the pipeline's filter
differs from the spec's "group by the first colset only": grouping by
`["a", "b"]` splits the two records into two small groups (600000 m² each,
dropped at the 1 km² threshold), while grouping by `["a"]` alone keeps
both (combined 1200000 m²).  So the later colsets do affect retention. -/
theorem c2_counterexample :
    prepopulateFilter [["a"], ["b"]]
        (some 1) [(⟨some 600000, [("a", some "x"), ("b", some "1")]⟩ : Row ℕ),
          ⟨some 600000, [("a", some "x"), ("b", some "2")]⟩] = Except.ok [] ∧
    firstColsetOnlyFilter [["a"], ["b"]]
        1 [(⟨some 600000, [("a", some "x"), ("b", some "1")]⟩ : Row ℕ),
          ⟨some 600000, [("a", some "x"), ("b", some "2")]⟩] =
      Except.ok [⟨some 600000, [("a", some "x"), ("b", some "1")]⟩,
        ⟨some 600000, [("a", some "x"), ("b", some "2")]⟩] ∧
    prepopulateFilter [["a"], ["b"]]
        (some 1) [(⟨some 600000, [("a", some "x"), ("b", some "1")]⟩ : Row ℕ),
          ⟨some 600000, [("a", some "x"), ("b", some "2")]⟩] ≠
      firstColsetOnlyFilter [["a"], ["b"]]
        1 [(⟨some 600000, [("a", some "x"), ("b", some "1")]⟩ : Row ℕ),
          ⟨some 600000, [("a", some "x"), ("b", some "2")]⟩] := by
  have hq : (1 : ℚ) * 1000 ^ 2 = 1000000 := by norm_num
  have h1 : prepopulateFilter [["a"], ["b"]]
      (some 1) [(⟨some 600000, [("a", some "x"), ("b", some "1")]⟩ : Row ℕ),
        ⟨some 600000, [("a", some "x"), ("b", some "2")]⟩] = Except.ok [] := by
    have h0 : prepopulateFilter [["a"], ["b"]]
        (some 1) [(⟨some 600000, [("a", some "x"), ("b", some "1")]⟩ : Row ℕ),
          ⟨some 600000, [("a", some "x"), ("b", some "2")]⟩] =
        dropSmallZones ["a", "b"] ((1 : ℚ) * 1000 ^ 2)
          (normalize ["a", "b"] [(⟨some 600000, [("a", some "x"), ("b", some "1")]⟩ : Row ℕ),
            ⟨some 600000, [("a", some "x"), ("b", some "2")]⟩]) := rfl
    rw [h0, hq]
    rfl
  have h2 : firstColsetOnlyFilter [["a"], ["b"]]
      1 [(⟨some 600000, [("a", some "x"), ("b", some "1")]⟩ : Row ℕ),
        ⟨some 600000, [("a", some "x"), ("b", some "2")]⟩] =
      Except.ok [⟨some 600000, [("a", some "x"), ("b", some "1")]⟩,
        ⟨some 600000, [("a", some "x"), ("b", some "2")]⟩] := by
    have h0 : firstColsetOnlyFilter [["a"], ["b"]]
        1 [(⟨some 600000, [("a", some "x"), ("b", some "1")]⟩ : Row ℕ),
          ⟨some 600000, [("a", some "x"), ("b", some "2")]⟩] =
        dropSmallZones ["a"] ((1 : ℚ) * 1000 ^ 2)
          (normalize ["a", "b"] [(⟨some 600000, [("a", some "x"), ("b", some "1")]⟩ : Row ℕ),
            ⟨some 600000, [("a", some "x"), ("b", some "2")]⟩]) := rfl
    rw [h0, hq]
    rfl
  refine ⟨h1, h2, fun h => ?_⟩
  rw [h1, h2] at h
  simp at h

/-! ## Claim theorem about missing-value normalization -/

/-- C6: before key extraction, every missing value in the flattened,
deduplicated projection columns is replaced by the empty string (so those
columns carry no missing value downstream), and columns outside that list
are untouched. -/
theorem c6_normalization_replaces_missing (colsets : List (List String))
    (shp : List (Row G))
    (hwf : ∀ r ∈ shp, ∀ c ∈ uniquify colsets.flatten, hasColumn r c) :
    (∀ r ∈ shp, ∀ c ∈ uniquify colsets.flatten,
      getVal (normalizeRecord (uniquify colsets.flatten) r) c =
        some (Option.getD (getVal r c) "")) ∧
    (∀ r ∈ shp, ∀ c, c ∉ uniquify colsets.flatten →
      getVal (normalizeRecord (uniquify colsets.flatten) r) c = getVal r c) ∧
    (∀ r' ∈ normalize (uniquify colsets.flatten) shp,
      ∀ c ∈ uniquify colsets.flatten, getVal r' c ≠ none) := by
  refine ⟨fun r hr c hc => getVal_normalizeRecord_of_mem _ r c hc (hwf r hr c hc),
    fun r _ c hc => getVal_normalizeRecord_of_not_mem _ r c hc, ?_⟩
  intro r' hr' c hc
  obtain ⟨r, hr, rfl⟩ := List.mem_map.mp hr'
  rw [getVal_normalizeRecord_of_mem _ r c hc (hwf r hr c hc)]
  exact Option.some_ne_none _

/-- C6 witness at a concrete input. -/
theorem c6_normalization_replaces_missing_witness :
    (∀ r ∈ ([⟨none, [("a", none), ("b", none)]⟩] : List (Row ℕ)),
      ∀ c ∈ uniquify ([["a"]] : List (List String)).flatten, hasColumn r c) ∧
    ((∀ r ∈ ([⟨none, [("a", none), ("b", none)]⟩] : List (Row ℕ)),
      ∀ c ∈ uniquify ([["a"]] : List (List String)).flatten,
      getVal (normalizeRecord (uniquify ([["a"]] : List (List String)).flatten) r) c =
        some (Option.getD (getVal r c) "")) ∧
    (∀ r ∈ ([⟨none, [("a", none), ("b", none)]⟩] : List (Row ℕ)),
      ∀ c, c ∉ uniquify ([["a"]] : List (List String)).flatten →
      getVal (normalizeRecord (uniquify ([["a"]] : List (List String)).flatten) r) c =
        getVal r c) ∧
    (∀ r' ∈ normalize (uniquify ([["a"]] : List (List String)).flatten)
        ([⟨none, [("a", none), ("b", none)]⟩] : List (Row ℕ)),
      ∀ c ∈ uniquify ([["a"]] : List (List String)).flatten, getVal r' c ≠ none)) :=
  ⟨by decide, c6_normalization_replaces_missing [["a"]] _ (by decide)⟩

/-! ## Claim theorems about the per-colset block builder -/

theorem keyLe_trans (a b c : KeyTuple) (h1 : keyLe a b = true)
    (h2 : keyLe b c = true) : keyLe a c = true := by
  rw [keyLe, decide_eq_true_eq] at *
  exact le_trans h1 h2

theorem keyLe_total (a b : KeyTuple) : (keyLe a b || keyLe b a) = true := by
  rcases le_total a b with h | h
  · simp [keyLe, h]
  · simp [keyLe, h]

/-- Anchor for the sort order: a missing value (pandas `NaN`) sorts after
every present value, and present values sort by string order. -/
theorem keyLe_missing_sorts_last :
    keyLe [some "x"] [none] = true ∧ keyLe [none] [some "x"] = false := by
  constructor <;> decide

/-- C5: the data rows of a block are exactly one per distinct key tuple of
the records projected to the colset, in ascending lexicographic order, and
an empty record set yields a header-only block. -/
theorem c5_build_row_count_and_order (shp : List (Row G)) (colset : List String)
    (varRegistry : List String) (imperial : Bool) (hcolset : colset ≠ []) :
    (build shp colset varRegistry imperial).2.length =
      (shp.map (keyOf colset)).toFinset.card ∧
    List.Sorted (· ≤ ·) (build shp colset varRegistry imperial).2 ∧
    (shp = [] → (build shp colset varRegistry imperial).2 = []) := by
  have hperm := List.mergeSort_perm (uniquify (shp.map (keyOf colset))) keyLe
  refine ⟨?_, ?_, ?_⟩
  · show (List.mergeSort (uniquify (shp.map (keyOf colset))) keyLe).length = _
    rw [hperm.length_eq, uniquify_length]
  · have hs := List.sorted_mergeSort
      (fun a b c h1 h2 => keyLe_trans a b c h1 h2)
      (fun a b => keyLe_total a b)
      (uniquify (shp.map (keyOf colset)))
    exact hs.imp fun h => by
      rw [keyLe, decide_eq_true_eq] at h
      exact h
  · intro h
    subst h
    exact hperm.eq_nil

/-- C5 witness: the §8 scenario, key column `Z` over values
`A, A, B, C`, yields exactly the three rows `A, B, C` in order. -/
theorem c5_build_row_count_and_order_witness :
    (["Z"] : List String) ≠ [] ∧
    ((build ([⟨none, [("Z", some "A")]⟩, ⟨none, [("Z", some "A")]⟩,
        ⟨none, [("Z", some "B")]⟩, ⟨none, [("Z", some "C")]⟩] : List (Row ℕ))
        ["Z"] ["zone", "maxHeightMeters"] false).2.length =
      (([⟨none, [("Z", some "A")]⟩, ⟨none, [("Z", some "A")]⟩,
        ⟨none, [("Z", some "B")]⟩, ⟨none, [("Z", some "C")]⟩] : List (Row ℕ)).map
          (keyOf ["Z"])).toFinset.card ∧
    List.Sorted (· ≤ ·)
      (build ([⟨none, [("Z", some "A")]⟩, ⟨none, [("Z", some "A")]⟩,
        ⟨none, [("Z", some "B")]⟩, ⟨none, [("Z", some "C")]⟩] : List (Row ℕ))
        ["Z"] ["zone", "maxHeightMeters"] false).2 ∧
    (([⟨none, [("Z", some "A")]⟩, ⟨none, [("Z", some "A")]⟩,
        ⟨none, [("Z", some "B")]⟩, ⟨none, [("Z", some "C")]⟩] : List (Row ℕ)) = [] →
      (build ([⟨none, [("Z", some "A")]⟩, ⟨none, [("Z", some "A")]⟩,
        ⟨none, [("Z", some "B")]⟩, ⟨none, [("Z", some "C")]⟩] : List (Row ℕ))
        ["Z"] ["zone", "maxHeightMeters"] false).2 = [])) ∧
    (build ([⟨none, [("Z", some "A")]⟩, ⟨none, [("Z", some "A")]⟩,
        ⟨none, [("Z", some "B")]⟩, ⟨none, [("Z", some "C")]⟩] : List (Row ℕ))
        ["Z"] ["zone", "maxHeightMeters"] false).2 =
      [[some "A"], [some "B"], [some "C"]] := by
  refine ⟨by decide, c5_build_row_count_and_order _ ["Z"] _ false (by decide), ?_⟩
  have hAB : ([some "A"] : KeyTuple) < [some "B"] := by
    refine List.Lex.rel ?_
    refine WithTop.coe_lt_coe.mpr ?_
    rw [String.lt_iff_toList_lt]
    decide
  have hBC : ([some "B"] : KeyTuple) < [some "C"] := by
    refine List.Lex.rel ?_
    refine WithTop.coe_lt_coe.mpr ?_
    rw [String.lt_iff_toList_lt]
    decide
  show List.mergeSort [[some "A"], [some "B"], [some "C"]] keyLe = _
  refine List.mergeSort_of_sorted ?_
  refine List.Pairwise.cons ?_ (List.Pairwise.cons ?_ (List.pairwise_singleton _ _))
  · intro k hk
    rcases List.mem_cons.mp hk with rfl | hk
    · exact decide_eq_true hAB.le
    · rw [List.mem_singleton.mp hk]
      exact decide_eq_true (hAB.trans hBC).le
  · intro k hk
    rw [List.mem_singleton.mp hk]
    exact decide_eq_true hBC.le

/-- C1 (amended): a data row has exactly one cell per colset column (the
key values only — no placeholder cells are emitted for the variable
columns), while the header row has one cell per colset column plus one per
resolved variable name; the two widths differ by the number of variable
columns. -/
theorem c1_header_and_data_row_widths (shp : List (Row G)) (colset : List String)
    (varRegistry : List String) (imperial : Bool) :
    (build shp colset varRegistry imperial).1.length =
      colset.length + (resolveAttrs varRegistry imperial).length ∧
    (resolveAttrs varRegistry imperial).length =
      (varRegistry.filter fun v => decide (v ≠ "zone")).length ∧
    ∀ row ∈ (build shp colset varRegistry imperial).2,
      row.length = colset.length := by
  refine ⟨by simp [build], by cases imperial <;> simp [resolveAttrs], ?_⟩
  intro row hrow
  have hrow' : row ∈ List.mergeSort (uniquify (shp.map (keyOf colset))) keyLe := hrow
  have hmem := (List.mergeSort_perm (uniquify (shp.map (keyOf colset))) keyLe).mem_iff.mp hrow'
  rw [uniquify_mem] at hmem
  obtain ⟨r, _, rfl⟩ := List.mem_map.mp hmem
  exact keyOf_length colset r

/-- C1 witness at a concrete input. -/
theorem c1_header_and_data_row_widths_witness :
    (build ([⟨none, [("Z", some "A")]⟩] : List (Row ℕ)) ["Z"]
        ["zone", "maxHeightMeters"] false).1.length =
      (["Z"] : List String).length + (resolveAttrs ["zone", "maxHeightMeters"] false).length ∧
    (resolveAttrs ["zone", "maxHeightMeters"] false).length =
      ((["zone", "maxHeightMeters"] : List String).filter fun v => decide (v ≠ "zone")).length ∧
    ∀ row ∈ (build ([⟨none, [("Z", some "A")]⟩] : List (Row ℕ)) ["Z"]
        ["zone", "maxHeightMeters"] false).2,
      row.length = (["Z"] : List String).length :=
  c1_header_and_data_row_widths _ ["Z"] ["zone", "maxHeightMeters"] false

/-- C1 counterexample: with one colset column and one (non-`zone`) variable
the header row has two cells but the single data row has one cell, so
header width does not equal data row width. -/
theorem c1_counterexample :
    ¬ ∀ row ∈ (build ([⟨none, [("Z", some "A")]⟩] : List (Row ℕ)) ["Z"]
        ["zone", "maxHeightMeters"] false).2,
      row.length = (build ([⟨none, [("Z", some "A")]⟩] : List (Row ℕ)) ["Z"]
        ["zone", "maxHeightMeters"] false).1.length := by
  intro h
  have hmem : [(some "A" : Cell)] ∈ (build ([⟨none, [("Z", some "A")]⟩] : List (Row ℕ))
      ["Z"] ["zone", "maxHeightMeters"] false).2 :=
    (List.mergeSort_perm _ keyLe).mem_iff.mpr (by decide)
  have hlen := h _ hmem
  exact absurd hlen (by decide)

/-! ## Properties of string replacement -/

theorem listReplaceAux_nil (a : Char) (p' r : List Char) (n : Nat) :
    listReplaceAux a p' r n [] = [] := by
  cases n <;> rfl

theorem listReplaceAux_cons (a : Char) (p' r : List Char) (n : Nat)
    (c : Char) (t : List Char) :
    listReplaceAux a p' r (n + 1) (c :: t) =
      if (a :: p') <+: (c :: t)
      then r ++ listReplaceAux a p' r n (t.drop p'.length)
      else c :: listReplaceAux a p' r n t := rfl

theorem prefix_append_cases {α : Type} (w u v : List α) (h : w <+: u ++ v) :
    w <+: u ∨ ∃ w2, w = u ++ w2 ∧ w2 <+: v := by
  induction u generalizing w with
  | nil => exact Or.inr ⟨w, rfl, h⟩
  | cons c u' ihu =>
    cases w with
    | nil => exact Or.inl List.nil_prefix
    | cons d w' =>
      rw [List.cons_append] at h
      obtain ⟨rfl, h'⟩ := List.cons_prefix_cons.mp h
      rcases ihu w' h' with h1 | ⟨w2, rfl, h2⟩
      · exact Or.inl (List.cons_prefix_cons.mpr ⟨rfl, h1⟩)
      · exact Or.inr ⟨w2, by rw [List.cons_append], h2⟩

theorem infix_append_cases {α : Type} (w u v : List α) (h : w <:+: u ++ v) :
    w <:+: u ∨ w <:+: v ∨
      ∃ w1 w2, w = w1 ++ w2 ∧ w1 ≠ [] ∧ w2 ≠ [] ∧ w1 <:+ u ∧ w2 <+: v := by
  induction u with
  | nil => exact Or.inr (Or.inl (by simpa using h))
  | cons c u' ihu =>
    rw [List.cons_append] at h
    rcases List.infix_cons_iff.mp h with hpre | hinf
    · cases w with
      | nil => exact Or.inl List.nil_infix
      | cons d w' =>
        obtain ⟨rfl, h'⟩ := List.cons_prefix_cons.mp hpre
        rcases prefix_append_cases w' u' v h' with h1 | ⟨w2, rfl, h2⟩
        · exact Or.inl (List.IsPrefix.isInfix (List.cons_prefix_cons.mpr ⟨rfl, h1⟩))
        · by_cases hw2 : w2 = []
          · subst hw2
            exact Or.inl (List.IsPrefix.isInfix (by rw [List.append_nil]))
          · exact Or.inr (Or.inr ⟨d :: u', w2, by rw [List.cons_append],
              List.cons_ne_nil d u', hw2, List.suffix_refl (d :: u'), h2⟩)
    · rcases ihu hinf with h1 | h2 | ⟨w1, w2, rfl, hn1, hn2, hs, hp⟩
      · exact Or.inl (List.infix_cons h1)
      · exact Or.inr (Or.inl h2)
      · exact Or.inr (Or.inr ⟨w1, w2, rfl, hn1, hn2, hs.trans (List.suffix_cons c u'), hp⟩)

/-- Characters of the replaced string that form a prefix free of the
replacement word's head character come from the original string. -/
theorem prefix_of_listReplaceAux (a b : Char) (p' r' : List Char) :
    ∀ (n : Nat) (t w : List Char), t.length ≤ n → b ∉ w →
      w <+: listReplaceAux a p' (b :: r') n t → w <+: t := by
  intro n
  induction n with
  | zero =>
    intro t w ht _ hw
    obtain rfl : t = [] := List.length_eq_zero.mp (Nat.le_zero.mp ht)
    rw [listReplaceAux_nil] at hw
    rw [List.prefix_nil.mp hw]
  | succ n ih =>
    intro t w ht hb hw
    cases t with
    | nil =>
      rw [listReplaceAux_nil] at hw
      rw [List.prefix_nil.mp hw]
    | cons c t' =>
      rw [listReplaceAux_cons] at hw
      have ht' : t'.length ≤ n := by
        simp only [List.length_cons] at ht
        omega
      by_cases hpre : (a :: p') <+: (c :: t')
      · rw [if_pos hpre, List.cons_append] at hw
        cases w with
        | nil => exact List.nil_prefix
        | cons w0 w1 =>
          obtain ⟨rfl, -⟩ := List.cons_prefix_cons.mp hw
          exact absurd (List.mem_cons_self _ _) hb
      · rw [if_neg hpre] at hw
        cases w with
        | nil => exact List.nil_prefix
        | cons w0 w1 =>
          obtain ⟨rfl, hw1⟩ := List.cons_prefix_cons.mp hw
          have hb1 : b ∉ w1 := fun hmem => hb (List.mem_cons_of_mem _ hmem)
          exact List.cons_prefix_cons.mpr ⟨rfl, ih t' w1 ht' hb1 hw1⟩

/-- Fueled roundtrip: replacing `a :: p'` by `b :: r'` and then `b :: r'`
by `a :: p'` restores a string that contains no `b :: r'`, provided the
replacement word does not repeat its own head character. -/
theorem listReplaceAux_roundtrip (a b : Char) (p' r' : List Char)
    (hb : b ∉ r') :
    ∀ (n : Nat) (s : List Char), s.length ≤ n → ¬ (b :: r') <:+: s →
      ∀ (m : Nat), (listReplaceAux a p' (b :: r') n s).length ≤ m →
        listReplaceAux b r' (a :: p') m (listReplaceAux a p' (b :: r') n s) = s := by
  intro n
  induction n with
  | zero =>
    intro s hs _ m _
    obtain rfl : s = [] := List.length_eq_zero.mp (Nat.le_zero.mp hs)
    rw [listReplaceAux_nil, listReplaceAux_nil]
  | succ n ih =>
    intro s hslen hs m hm
    cases s with
    | nil => rw [listReplaceAux_nil, listReplaceAux_nil]
    | cons c t =>
      have ht : t.length ≤ n := by
        simp only [List.length_cons] at hslen
        omega
      rw [listReplaceAux_cons] at hm ⊢
      by_cases hpre : (a :: p') <+: (c :: t)
      · rw [if_pos hpre] at hm ⊢
        obtain ⟨u, hu⟩ := hpre
        have hct : c :: t = (a :: p') ++ u := hu.symm
        have htu : t = p' ++ u := by
          rw [List.cons_append] at hct
          exact (List.cons.inj hct).2
        have hdrop : t.drop p'.length = u := by
          rw [htu]
          exact List.drop_left p' u
        rw [hdrop] at hm ⊢
        have hulen : u.length ≤ n := by
          rw [htu] at ht
          simp only [List.length_append] at ht
          omega
        have husuf : u <:+ c :: t := ⟨a :: p', hu⟩
        have hu_noinf : ¬ (b :: r') <:+: u := fun hinf =>
          hs (hinf.trans husuf.isInfix)
        rw [List.cons_append] at hm ⊢
        cases m with
        | zero => simp at hm
        | succ m =>
          rw [listReplaceAux_cons]
          rw [if_pos (List.cons_prefix_cons.mpr ⟨rfl, List.prefix_append r' _⟩)]
          have hdrop2 : (r' ++ listReplaceAux a p' (b :: r') n u).drop r'.length =
              listReplaceAux a p' (b :: r') n u := List.drop_left r' _
          rw [hdrop2]
          have hxm : (listReplaceAux a p' (b :: r') n u).length ≤ m := by
            simp only [List.length_cons, List.length_append] at hm
            omega
          rw [ih u hulen hu_noinf m hxm]
          exact hu
      · rw [if_neg hpre] at hm ⊢
        have ht_noinf : ¬ (b :: r') <:+: t := fun hinf =>
          hs (List.infix_cons hinf)
        cases m with
        | zero => simp at hm
        | succ m =>
          rw [listReplaceAux_cons]
          have hnp : ¬ (b :: r') <+: (c :: listReplaceAux a p' (b :: r') n t) := by
            intro hp
            obtain ⟨rfl, hp'⟩ := List.cons_prefix_cons.mp hp
            have := prefix_of_listReplaceAux a b p' r' n t r' ht hb hp'
            exact hs (List.IsPrefix.isInfix (List.cons_prefix_cons.mpr ⟨rfl, this⟩))
          rw [if_neg hnp]
          have hym : (listReplaceAux a p' (b :: r') n t).length ≤ m := by
            simp only [List.length_cons] at hm
            omega
          rw [ih t ht ht_noinf m hym]

/-- Fueled no-creation: replacing `a :: p'` by `b :: r'` cannot create a
new occurrence of a word `f :: w1` that does not occur in the original
string, under decidable side conditions on the words. -/
theorem listReplaceAux_not_infix (a b f : Char) (p' r' w1 : List Char)
    (hw_r : ¬ (f :: w1) <:+: (b :: r'))
    (hstr : ∀ u ∈ (f :: w1).inits, u ≠ [] → u ≠ f :: w1 → ¬ u <:+ (b :: r'))
    (hb : b ∉ w1) :
    ∀ (n : Nat) (s : List Char), s.length ≤ n → ¬ (f :: w1) <:+: s →
      ¬ (f :: w1) <:+: listReplaceAux a p' (b :: r') n s := by
  intro n
  induction n with
  | zero =>
    intro s hslen _ h
    obtain rfl : s = [] := List.length_eq_zero.mp (Nat.le_zero.mp hslen)
    rw [listReplaceAux_nil] at h
    exact List.cons_ne_nil f w1 (List.infix_nil.mp h)
  | succ n ih =>
    intro s hslen hs h
    cases s with
    | nil =>
      rw [listReplaceAux_nil] at h
      exact List.cons_ne_nil f w1 (List.infix_nil.mp h)
    | cons c t =>
      have ht : t.length ≤ n := by
        simp only [List.length_cons] at hslen
        omega
      rw [listReplaceAux_cons] at h
      by_cases hpre : (a :: p') <+: (c :: t)
      · rw [if_pos hpre] at h
        have hdropsuf : t.drop p'.length <:+ t := List.drop_suffix _ t
        have hdrop_noinf : ¬ (f :: w1) <:+: t.drop p'.length := fun hinf =>
          hs (List.infix_cons (hinf.trans hdropsuf.isInfix))
        have hdroplen : (t.drop p'.length).length ≤ n := by
          have := List.length_drop p'.length t
          omega
        rcases infix_append_cases _ _ _ h with h1 | h2 | ⟨u1, u2, hequ, hn1, hn2, hsuf, -⟩
        · exact hw_r h1
        · exact ih (t.drop p'.length) hdroplen hdrop_noinf h2
        · refine hstr u1 ?_ hn1 ?_ hsuf
          · exact (List.mem_inits _ _).mpr ⟨u2, hequ.symm⟩
          · intro hcontr
            rw [hcontr] at hequ
            have : u2 = [] := by
              have hlen := congrArg List.length hequ
              simp only [List.length_append] at hlen
              have : u2.length = 0 := by omega
              exact List.length_eq_zero.mp this
            exact hn2 this
      · rw [if_neg hpre] at h
        have ht_noinf : ¬ (f :: w1) <:+: t := fun hinf =>
          hs (List.infix_cons hinf)
        rcases List.infix_cons_iff.mp h with hp | hinf
        · obtain ⟨rfl, hp'⟩ := List.cons_prefix_cons.mp hp
          have := prefix_of_listReplaceAux a b p' r' n t w1 ht hb hp'
          exact hs (List.IsPrefix.isInfix (List.cons_prefix_cons.mpr ⟨rfl, this⟩))
        · exact ih t ht ht_noinf hinf

/-- Roundtrip for `listReplace`. -/
theorem listReplace_roundtrip (a b : Char) (p' r' : List Char) (hb : b ∉ r')
    (s : List Char) (hs : ¬ (b :: r') <:+: s) :
    listReplace (b :: r') (a :: p') (listReplace (a :: p') (b :: r') s) = s :=
  listReplaceAux_roundtrip a b p' r' hb s.length s (Nat.le_refl _) hs _ (Nat.le_refl _)

/-- No-creation for `listReplace`. -/
theorem listReplace_not_infix (a b f : Char) (p' r' w1 : List Char)
    (hw_r : ¬ (f :: w1) <:+: (b :: r'))
    (hstr : ∀ u ∈ (f :: w1).inits, u ≠ [] → u ≠ f :: w1 → ¬ u <:+ (b :: r'))
    (hb : b ∉ w1) (s : List Char) (hs : ¬ (f :: w1) <:+: s) :
    ¬ (f :: w1) <:+: listReplace (a :: p') (b :: r') s :=
  listReplaceAux_not_infix a b f p' r' w1 hw_r hstr hb s.length s (Nat.le_refl _) hs

/-- Metric→imperial→metric roundtrip for one variable name on which the
substitution is defined. -/
theorem toMetricName_toImperialName (x : String) (hx : substitutionDefined x) :
    toMetricName (toImperialName x) = x := by
  obtain ⟨hA, hF⟩ := hx
  apply String.ext
  show listReplace "Acres".data "Hectares".data
      (listReplace "Feet".data "Meters".data
        (listReplace "Meters".data "Feet".data
          (listReplace "Hectares".data "Acres".data x.data))) = x.data
  rw [show "Hectares".data = 'H' :: "ectares".data from rfl,
    show "Acres".data = 'A' :: "cres".data from rfl,
    show "Meters".data = 'M' :: "eters".data from rfl,
    show "Feet".data = 'F' :: "eet".data from rfl] at *
  have hnoFeet : ¬ ('F' :: "eet".data) <:+:
      listReplace ('H' :: "ectares".data) ('A' :: "cres".data) x.data :=
    listReplace_not_infix 'H' 'A' 'F' "ectares".data "cres".data "eet".data
      (by decide) (by decide) (by decide) x.data hF
  rw [listReplace_roundtrip 'M' 'F' "eters".data "eet".data (by decide) _ hnoFeet]
  exact listReplace_roundtrip 'H' 'A' "ectares".data "cres".data (by decide) x.data hA

/-- C7: on variable-name lists for which the substitution is defined,
imperial renaming followed by the inverse substitution is the identity. -/
theorem c7_imperial_renaming_roundtrip (attrs : List String)
    (h : ∀ x ∈ attrs, substitutionDefined x) :
    toMetricNames (toImperialNames attrs) = attrs := by
  rw [toMetricNames, toImperialNames, List.map_map]
  conv_rhs => rw [← List.map_id attrs]
  exact List.map_congr_left fun x hx => toMetricName_toImperialName x (h x hx)

/-- C7 witness: the registry `zone, maxHeightMeters` round-trips, and
imperial rewriting indeed turns `maxHeightMeters` into `maxHeightFeet`. -/
theorem c7_imperial_renaming_roundtrip_witness :
    (∀ x ∈ (["zone", "maxHeightMeters"] : List String), substitutionDefined x) ∧
    toMetricNames (toImperialNames ["zone", "maxHeightMeters"]) =
      ["zone", "maxHeightMeters"] ∧
    toImperialNames ["maxHeightMeters"] = ["maxHeightFeet"] :=
  ⟨by decide, c7_imperial_renaming_roundtrip ["zone", "maxHeightMeters"] (by decide), rfl⟩

/-- C8 witness at a concrete input. -/
theorem c8_scalar_and_tuple_masks_agree_witness :
    (∀ r : Row ℕ, maskScalar "a" (retainedKeys ["a"] (3 : ℚ)
        ([⟨some 8, [("a", some "x")]⟩] : List (Row ℕ))) r =
      maskTuple ["a"] (retainedKeys ["a"] (3 : ℚ)
        ([⟨some 8, [("a", some "x")]⟩] : List (Row ℕ))) r) ∧
    dropSmallZones ["a"] (3 : ℚ) ([⟨some 8, [("a", some "x")]⟩] : List (Row ℕ)) =
      Except.ok (([⟨some 8, [("a", some "x")]⟩] : List (Row ℕ)).filter fun r =>
        maskTuple ["a"] (retainedKeys ["a"] (3 : ℚ) [⟨some 8, [("a", some "x")]⟩]) r) :=
  c8_scalar_and_tuple_masks_agree "a" 3 [⟨some 8, [("a", some "x")]⟩]

/-- C9 witness at a concrete input. -/
theorem c9_empty_colsets_error_witness :
    prepopulateFilter [] (some (4 : ℚ)) ([⟨some 8, [("a", some "x")]⟩] : List (Row ℕ)) =
      Except.error "No group keys passed!" ∧
    ∀ out, prepopulateFilter [] (some (4 : ℚ))
        ([⟨some 8, [("a", some "x")]⟩] : List (Row ℕ)) ≠ Except.ok out :=
  c9_empty_colsets_error 4 [⟨some 8, [("a", some "x")]⟩]
end ZoningSpec
